import Mathlib

/-!
# Off-grid source synthesis and analytical reference fields

A verification development for the off-grid transducer synthesis pipeline and
the closed-form focused-bowl / annular-array field evaluators exercised by the
two notebooks of this repository.  The library functions the notebooks call
(`focused_bowl_oneil`, `focused_annulus_oneil`, `create_cw_signals`,
`kWaveArray` with its `add_arc_element`, `get_array_grid_weights`,
`get_array_binary_mask` and `get_distributed_source_signal` operations) are not
among the sources, so every definition below is modelled from the
design specification and carries a doc comment saying so.
-/

open Filter Topology

/-! ## Analytical field evaluator (spec 4.5) -/

/-- Modelled from the spec: the implementation of the bowl geometry helper is
not among the sources.  Depth of the spherical (or circular) cap with radius of
curvature `roc` and aperture radius `a`. -/
noncomputable def capHeight (roc a : ℝ) : ℝ :=
  roc - Real.sqrt (roc ^ 2 - a ^ 2)

/-- Modelled from the spec: distance from the rim of the aperture to the axial
point `z` (the closed form is written in terms of the distance to the rim and
to the focus). -/
noncomputable def rimDistance (roc a z : ℝ) : ℝ :=
  Real.sqrt ((z - capHeight roc a) ^ 2 + a ^ 2)

/-- Modelled from the spec: the closed-form on-axis pressure factor of the
focused-piston (O'Neil) integral away from the geometric focus.  The
denominator `1 - z / roc` vanishes exactly at the focus `z = roc`. -/
noncomputable def onAxisSingular (roc a k z : ℝ) : ℝ :=
  2 * Real.sin (k * (rimDistance roc a z - z) / 2) / (1 - z / roc)

/-- Modelled from the spec: the removable-singularity limiting value of the
on-axis closed form at the geometric focus. -/
noncomputable def onAxisFocusValue (roc a k : ℝ) : ℝ :=
  k * capHeight roc a

/-- Modelled from the spec: the branch-complete on-axis pressure factor, which
evaluates the focus through the mathematically equivalent non-singular form
instead of dividing by the vanishing denominator. -/
noncomputable def onAxisFactor (roc a k z : ℝ) : ℝ :=
  if z = roc then onAxisFocusValue roc a k else onAxisSingular roc a k z

/-- Modelled from the spec: `focused_bowl_oneil` is not among the sources.
On-axis pressure of a focused bowl of radius of curvature `roc` and aperture
diameter `d`, driven at frequency `f0` with impedance-normalised amplitude
`amp`, in a medium of sound speed `c0` and density `rho0`, evaluated at the
axial position `z`.  Real numbers replace the floating-point values of the
code, so every result is finite by construction. -/
noncomputable def focused_bowl_oneil (roc d amp f0 c0 rho0 z : ℝ) : ℝ :=
  rho0 * c0 * amp * onAxisFactor roc (d / 2) (2 * Real.pi * f0 / c0) z

/-- Modelled from the spec: one ring of an annular array, with inner and outer
aperture diameters and its own drive amplitude and phase. -/
structure AnnularRing where
  innerDiameter : ℝ
  outerDiameter : ℝ
  amp : ℝ
  phase : ℝ

/-- Modelled from the spec: the complex on-axis contribution of one annular
ring, the outer-radius piston solution minus the inner-radius piston solution,
carrying the ring amplitude and phase. -/
noncomputable def ringPressure (roc f0 c0 rho0 : ℝ) (r : AnnularRing) (z : ℝ) : ℂ :=
  ((rho0 * c0 * r.amp : ℝ) : ℂ) * Complex.exp ((r.phase : ℂ) * Complex.I) *
    (((onAxisFactor roc (r.outerDiameter / 2) (2 * Real.pi * f0 / c0) z -
        onAxisFactor roc (r.innerDiameter / 2) (2 * Real.pi * f0 / c0) z : ℝ) : ℂ))

/-- Modelled from the spec: `focused_annulus_oneil` is not among the sources.
The annular-array field is the coherent superposition of the individual
closed-form ring contributions. -/
noncomputable def focused_annulus_oneil (roc : ℝ) (rings : List AnnularRing)
    (f0 c0 rho0 z : ℝ) : ℂ :=
  (rings.map (fun r => ringPressure roc f0 c0 rho0 r z)).sum

/-! ## Continuous-wave signal generator (spec 4.4) -/

/-- Modelled from the spec: `create_cw_signals` is not among the sources.
For each element, pairing its scalar amplitude and phase, the generated time
series samples `amp * sin (2 pi f0 t + phase)` on the supplied time array. -/
noncomputable def create_cw_signals (t : List ℝ) (f0 : ℝ) (amps phases : List ℝ) :
    List (List ℝ) :=
  (List.zip amps phases).map (fun ap =>
    t.map (fun ti => ap.1 * Real.sin (2 * Real.pi * f0 * ti + ap.2)))

/-! ## Geometry elements and the integration sampler (spec 3, 4.1) -/

/-- Modelled from the spec: the eagerly reported error kinds of the synthesis
pipeline (spec 7). -/
inductive GeometryError where
  | invalidGeometry
  | unsupportedDimension

/-- Modelled from the spec: the immutable description of one arc element in
continuous space: apex position, radius of curvature, aperture diameter and
focus position. -/
structure ArcElement where
  position : ℝ × ℝ
  roc : ℝ
  diameter : ℝ
  focus : ℝ × ℝ

/-- Modelled from the spec: the integration sampler for an arc element, placing
points on the circular cap by uniform angular stepping (constant arc-length
spacing), each carrying the local arc-length weight; positions are in the local
element frame with the apex at the origin and the axis towards the focus (the
rigid motion onto `position`/`focus` does not change validity or weights).
Each entry is `(axial offset, lateral offset, local length weight)`. -/
noncomputable def arcIntegrationPoints (roc diameter dx : ℝ) (R : ℕ) :
    List (ℝ × ℝ × ℝ) :=
  let thetaMax := Real.arcsin (diameter / (2 * roc))
  let arcLength := 2 * roc * thetaMax
  let N := Nat.ceil (arcLength * (R : ℝ) / dx)
  (List.range N).map (fun j =>
    let theta := -thetaMax + ((j : ℝ) + 1 / 2) * (2 * thetaMax / (N : ℝ))
    (roc * (1 - Real.cos theta), roc * Real.sin theta, arcLength / (N : ℝ)))

/-- Modelled from the spec: `add_arc_element` is not among the sources.  The
aperture is validated eagerly: a diameter exceeding twice the radius of
curvature is rejected with `invalidGeometry` before any integration points are
generated; otherwise the sampled integration points of the element are
produced.  The function is pure, hence deterministic in its inputs. -/
noncomputable def add_arc_element (e : ArcElement) (dx : ℝ) (R : ℕ) :
    Except GeometryError (List (ℝ × ℝ × ℝ)) :=
  if 2 * e.roc < e.diameter then Except.error GeometryError.invalidGeometry
  else Except.ok (arcIntegrationPoints e.roc e.diameter dx R)

/-- Modelled from the spec: the exact area of the spherical cap cut by an
aperture of diameter `d` from a sphere of radius `roc`. -/
noncomputable def capArea (roc d : ℝ) : ℝ :=
  2 * Real.pi * roc * (roc - Real.sqrt (roc ^ 2 - (d / 2) ^ 2))

/-- Modelled from the spec: the number of integration points of a bowl element
scales with (surface area / grid spacing squared) times the squared
oversampling rate. -/
noncomputable def bowlPointCount (roc d dx : ℝ) (R : ℕ) : ℕ :=
  Nat.ceil (capArea roc d * (R : ℝ) ^ 2 / dx ^ 2)

/-- Modelled from the spec: the position of the `j`-th integration point of a
bowl element, placed on the spherical cap with uniform areal density
(equal-area polar bands, golden-angle azimuths), in the local element
frame. -/
noncomputable def bowlPoint (roc d dx : ℝ) (R : ℕ) (j : ℕ) : ℝ × ℝ × ℝ :=
  let N := bowlPointCount roc d dx R
  let cmin := Real.sqrt (roc ^ 2 - (d / 2) ^ 2) / roc
  let c := 1 - ((j : ℝ) + 1 / 2) * (1 - cmin) / (N : ℝ)
  let s := Real.sqrt (1 - c ^ 2)
  let psi := (j : ℝ) * (Real.pi * (3 - Real.sqrt 5))
  (roc * (1 - c), roc * s * Real.cos psi, roc * s * Real.sin psi)

/-- Modelled from the spec: the integration point set of a bowl element, each
point carrying the local area weight `capArea / N` (uniform areal density).
Each entry is `(position in the local frame, area weight)`. -/
noncomputable def bowlIntegrationPoints (roc d dx : ℝ) (R : ℕ) :
    List ((ℝ × ℝ × ℝ) × ℝ) :=
  (List.range (bowlPointCount roc d dx R)).map (fun (j : ℕ) =>
    (bowlPoint roc d dx R j, capArea roc d / ((bowlPointCount roc d dx R : ℕ) : ℝ)))

/-- Sum of the local area weights of an integration point set. -/
noncomputable def sumAreaWeights (pts : List ((ℝ × ℝ × ℝ) × ℝ)) : ℝ :=
  (pts.map (fun p => p.2)).sum

/-! ## Off-grid source mapping (spec 4.2, 4.3, 4.4)

The grid-mapping layer is embedded over the rationals so that every operation
is executable; the node lattice is flat-indexed (the one-dimensional instance
of the separable kernel) and positions are measured in units of the grid
spacing. -/

/-- Modelled from the spec: one off-grid integration point as consumed by the
source-map builder: a continuous position (in grid-index units) and its local
area weight. -/
structure IntegrationPoint where
  pos : ℚ
  areaWeight : ℚ

/-- Modelled from the spec: one transducer element as held by the array, the
ordered integration point set sampled on its surface. -/
structure TransducerElement where
  points : List IntegrationPoint

/-- Modelled from the spec: the off-grid source container with its dynamic
configuration: the BLI truncation tolerance, the oversampling rate and the
element list. -/
structure kWaveArray where
  bli_tolerance : ℚ
  upsampling_rate : ℕ
  elements : List TransducerElement

/-- Modelled from the spec: the exact 1D band-limited interpolant of
`BLIKernel` is not among the sources; this is a concrete piecewise-rational
kernel with the qualitative shape the spec describes for the discretised
sinc-like interpolant: unit peak at the node, a decaying main lobe, a negative
first side lobe, and compact support. -/
def bliKernel (x : ℚ) : ℚ :=
  if |x| ≤ 1 then 1 - |x|
  else if |x| ≤ 2 then 4 / 5 * (1 - |x|) * (2 - |x|)
  else 0

/-- Modelled from the spec: the truncated BLI weight of one integration point
at one grid node: weights whose single-axis magnitude falls below
`bli_tolerance` times the kernel peak are dropped before accumulation. -/
def truncatedWeight (tol : ℚ) (pos : ℚ) (n : ℕ) : ℚ :=
  let w := bliKernel (pos - (n : ℚ))
  if |w| < tol * bliKernel 0 then 0 else w

/-- Modelled from the spec: the accumulated weight one element contributes to
grid node `n`: the sum over its integration points of the local area weight
times the truncated BLI weight. -/
def elementWeight (tol : ℚ) (el : TransducerElement) (n : ℕ) : ℚ :=
  (el.points.map (fun p => p.areaWeight * truncatedWeight tol p.pos n)).sum

/-- Modelled from the spec: `get_array_grid_weights` is not among the sources.
The grid-wide weight table accumulates the contributions of all elements,
summing where footprints overlap. -/
def get_array_grid_weights (arr : kWaveArray) (n : ℕ) : ℚ :=
  (arr.elements.map (fun el => elementWeight arr.bli_tolerance el n)).sum

/-- Modelled from the spec: `get_array_binary_mask` is not among the sources.
A node is included exactly when its accumulated weight is strictly
positive. -/
def get_array_binary_mask (arr : kWaveArray) (n : ℕ) : Bool :=
  decide (0 < get_array_grid_weights arr n)

/-- Pointwise scaling of a sampled time signal. -/
def scaleSignal (w : ℚ) (s : List ℚ) : List ℚ :=
  s.map (fun v => w * v)

/-- Samplewise sum of two sampled time signals. -/
def addSignal (a b : List ℚ) : List ℚ :=
  List.zipWith (· + ·) a b

/-- Number of time samples of the per-element input signals. -/
def signalLength (sigs : List (List ℚ)) : ℕ :=
  match sigs with
  | [] => 0
  | s :: _ => s.length

/-- Modelled from the spec: the drive signal of one grid node, the sum over
elements of the node weight times that element temporal signal. -/
def nodeSignal (arr : kWaveArray) (sigs : List (List ℚ)) (n : ℕ) : List ℚ :=
  (List.zip arr.elements sigs).foldl
    (fun acc es => addSignal acc (scaleSignal (elementWeight arr.bli_tolerance es.1 n) es.2))
    (List.replicate (signalLength sigs) 0)

/-- The grid nodes marked by the binary mask, in grid order. -/
def activeNodes (arr : kWaveArray) (Nx : ℕ) : List ℕ :=
  (List.range Nx).filter (fun n => get_array_binary_mask arr n)

/-- Modelled from the spec: `get_distributed_source_signal` is not among the
sources.  One drive-signal row per active node of the binary mask, in grid
order. -/
def get_distributed_source_signal (arr : kWaveArray) (Nx : ℕ)
    (sigs : List (List ℚ)) : List (List ℚ) :=
  (activeNodes arr Nx).map (fun n => nodeSignal arr sigs n)

/-- A one-element, one-point array used to instantiate the universal theorems
on concrete data. -/
def demoArray : kWaveArray :=
  ⟨1 / 100, 10, [⟨[⟨0, 1⟩]⟩]⟩

/-- A one-element array whose integration points place the kernel peak of one
point and the negative first side lobe of six others on the same node. -/
def cancelElement : TransducerElement :=
  ⟨[⟨0, 1⟩, ⟨27 / 20, 1⟩, ⟨7 / 5, 1⟩, ⟨29 / 20, 1⟩, ⟨3 / 2, 1⟩, ⟨31 / 20, 1⟩, ⟨8 / 5, 1⟩]⟩

/-! ## Theorems -/

/-- The modelled BLI kernel has unit peak at the node. -/
theorem bliKernel_zero : bliKernel 0 = 1 := by
  norm_num [bliKernel]

/-- C3: for every array configuration and grid node, the binary mask marks the
node exactly when its accumulated weight in the grid-weight table is strictly
positive. -/
theorem get_array_binary_mask_iff_pos_weight (arr : kWaveArray) (n : ℕ) :
    get_array_binary_mask arr n = true ↔ 0 < get_array_grid_weights arr n := by
  simp [get_array_binary_mask]

/-- C4 counterexample: with the modelled signed (sinc-like) kernel the mask
footprint is not antitone in the truncation tolerance.  On `cancelElement` the
node 0 is active at tolerance 1/2 (only the unit peak survives truncation) but
inactive at the smaller tolerance 1/100, where the newly kept negative
side-lobe contributions drive the accumulated weight below zero. -/
theorem mask_footprint_not_antitone_counterexample :
    (1 : ℚ) / 100 ≤ 1 / 2 ∧
      get_array_binary_mask ⟨1 / 2, 10, [cancelElement]⟩ 0 = true ∧
      get_array_binary_mask ⟨1 / 100, 10, [cancelElement]⟩ 0 = false := by
  refine ⟨by norm_num, ?_, ?_⟩ <;>
    norm_num [get_array_binary_mask, get_array_grid_weights, elementWeight, cancelElement,
      truncatedWeight, bliKernel, abs_of_nonneg, abs_of_nonpos]

/-- Tightening the tolerance keeps every contribution that the looser
tolerance kept, with the same value. -/
theorem truncatedWeight_eq_of_le (t1 t2 : ℚ) (pos : ℚ) (n : ℕ) (h : t1 ≤ t2)
    (hne : truncatedWeight t2 pos n ≠ 0) :
    truncatedWeight t1 pos n = truncatedWeight t2 pos n := by
  rw [truncatedWeight] at hne ⊢
  rw [truncatedWeight]
  by_cases h2 : |bliKernel (pos - (n : ℚ))| < t2 * bliKernel 0
  · exact absurd (if_pos h2) hne
  · rw [if_neg h2, if_neg (fun h1 => h2 (lt_of_lt_of_le h1 (by
      have := bliKernel_zero
      nlinarith [abs_nonneg (bliKernel (pos - (n : ℚ)))])))]

/-- A nonnegative kernel value yields a nonnegative truncated weight. -/
theorem truncatedWeight_nonneg (t : ℚ) (pos : ℚ) (n : ℕ)
    (hw : 0 ≤ bliKernel (pos - (n : ℚ))) : 0 ≤ truncatedWeight t pos n := by
  rw [truncatedWeight]
  split
  · exact le_refl 0
  · exact hw

/-- With nonnegative contributions, tightening the tolerance can only increase
the truncated weight. -/
theorem truncatedWeight_mono (t1 t2 : ℚ) (pos : ℚ) (n : ℕ) (h : t1 ≤ t2)
    (hw : 0 ≤ bliKernel (pos - (n : ℚ))) :
    truncatedWeight t2 pos n ≤ truncatedWeight t1 pos n := by
  by_cases hne : truncatedWeight t2 pos n = 0
  · rw [hne]
    exact truncatedWeight_nonneg t1 pos n hw
  · rw [truncatedWeight_eq_of_le t1 t2 pos n h hne]

/-- C4 (amended): for tolerances `t1 ≤ t2`, every integration-point
contribution kept at `t2` is kept with the same value at `t1`
(`truncatedWeight_eq_of_le`), and a node all of whose kernel contributions are
nonnegative stays in the mask when the tolerance is lowered.  The unqualified
footprint monotonicity of the claim fails, because contributions from negative
side lobes of the band-limited kernel that enter at the smaller tolerance can
cancel the accumulated weight of a node
(`mask_footprint_not_antitone_counterexample`). -/
theorem get_array_binary_mask_antitone_of_nonneg (elems : List TransducerElement)
    (u : ℕ) (t1 t2 : ℚ) (n : ℕ) (h : t1 ≤ t2)
    (hnn : ∀ el ∈ elems, ∀ p ∈ el.points,
      0 ≤ p.areaWeight ∧ 0 ≤ bliKernel (p.pos - (n : ℚ)))
    (h2 : get_array_binary_mask ⟨t2, u, elems⟩ n = true) :
    get_array_binary_mask ⟨t1, u, elems⟩ n = true := by
  rw [get_array_binary_mask_iff_pos_weight] at h2 ⊢
  refine lt_of_lt_of_le h2 ?_
  rw [get_array_grid_weights, get_array_grid_weights]
  apply List.sum_le_sum
  intro el hel
  rw [elementWeight, elementWeight]
  apply List.sum_le_sum
  intro p hp
  have hc := hnn el hel p hp
  exact mul_le_mul_of_nonneg_left
    (truncatedWeight_mono t1 t2 p.pos n h hc.2) hc.1

/-- Witness for the amended C4 statement on a concrete one-point element. -/
theorem get_array_binary_mask_antitone_of_nonneg_witness :
    (1 : ℚ) / 100 ≤ 1 / 2 ∧
      get_array_binary_mask ⟨1 / 100, 10, [⟨[⟨0, 1⟩]⟩]⟩ 0 = true := by
  refine ⟨by norm_num, ?_⟩
  apply get_array_binary_mask_antitone_of_nonneg [⟨[⟨0, 1⟩]⟩] 10 (1 / 100) (1 / 2) 0
    (by norm_num)
  · intro el hel p hp
    simp only [List.mem_singleton] at hel
    subst hel
    simp only [List.mem_singleton] at hp
    subst hp
    constructor
    · norm_num
    · norm_num [bliKernel]
  · norm_num [get_array_binary_mask, get_array_grid_weights, elementWeight,
      truncatedWeight, bliKernel, abs_of_nonneg]

/-- The samplewise sum of two signals has the length of the shorter one. -/
theorem addSignal_length (a b : List ℚ) :
    (addSignal a b).length = min a.length b.length := by
  rw [addSignal, List.length_zipWith]

/-- Folding element contributions into an accumulator of sample length `L`
keeps the sample length `L` whenever every element signal has length `L`. -/
theorem foldl_addSignal_length (tol : ℚ) (n : ℕ) (L : ℕ)
    (ps : List (TransducerElement × List ℚ)) (acc : List ℚ)
    (hq : ∀ q ∈ ps, q.2.length = L) (ha : acc.length = L) :
    (ps.foldl
        (fun acc es => addSignal acc (scaleSignal (elementWeight tol es.1 n) es.2))
        acc).length = L := by
  induction ps generalizing acc with
  | nil => simpa using ha
  | cons q ps ih =>
    rw [List.foldl_cons]
    apply ih
    · intro r hr
      exact hq r (List.mem_cons_of_mem _ hr)
    · have hq0 := hq q (List.mem_cons_self _ _)
      rw [addSignal_length, scaleSignal, List.length_map, ha, hq0, min_self]

/-- C6: the signal distributor preserves the time axis: when every per-element
input signal has `L` samples, every per-node drive signal also has `L`
samples; the distributor never lengthens, truncates or resamples the time
dimension. -/
theorem get_distributed_source_signal_preserves_length (arr : kWaveArray)
    (Nx L : ℕ) (sigs : List (List ℚ)) (hne : sigs ≠ [])
    (hlen : ∀ s ∈ sigs, s.length = L) :
    ∀ row ∈ get_distributed_source_signal arr Nx sigs, row.length = L := by
  intro row hrow
  rw [get_distributed_source_signal] at hrow
  obtain ⟨n, hn, rfl⟩ := List.mem_map.mp hrow
  have hsl : signalLength sigs = L := by
    cases sigs with
    | nil => exact absurd rfl hne
    | cons s ss => exact hlen s (List.mem_cons_self _ _)
  rw [nodeSignal]
  apply foldl_addSignal_length
  · intro q hq
    obtain ⟨e, s⟩ := q
    exact hlen s (List.of_mem_zip hq).2
  · rw [List.length_replicate, hsl]

/-- Witness for C6 on a concrete one-element array and a three-sample
signal. -/
theorem get_distributed_source_signal_preserves_length_witness :
    (nodeSignal demoArray [[(1 : ℚ), 2, 3]] 0).length = 3 := by
  apply get_distributed_source_signal_preserves_length demoArray 1 3
    [[(1 : ℚ), 2, 3]] (by simp) (by simp)
  norm_num [get_distributed_source_signal, activeNodes, get_array_binary_mask,
    get_array_grid_weights, elementWeight, demoArray, truncatedWeight, bliKernel,
    List.range_succ, abs_of_nonneg]

/-- Counting the nodes a Boolean grid predicate marks agrees between the list
pipeline and the finite-set count. -/
theorem length_filter_range_eq_card (p : ℕ → Bool) (N : ℕ) :
    ((List.range N).filter p).length
      = (Finset.filter (fun n => p n = true) (Finset.range N)).card := by
  induction N with
  | zero => simp
  | succ m ih =>
    rw [List.range_succ, List.filter_append, List.length_append, Finset.range_succ,
      Finset.filter_insert]
    by_cases hm : p m = true
    · rw [if_pos hm, Finset.card_insert_of_not_mem (by simp)]
      simp [hm, ih]
    · rw [if_neg hm]
      simp [hm, ih]

/-- C9: the drive-signal array has exactly one per-node row for each active
node of the binary mask on the same grid, so assigning the two as the solver
source is always consistent. -/
theorem get_distributed_source_signal_rows_eq_mask_count (arr : kWaveArray)
    (Nx : ℕ) (sigs : List (List ℚ)) :
    (get_distributed_source_signal arr Nx sigs).length
      = (Finset.filter (fun n => get_array_binary_mask arr n = true)
          (Finset.range Nx)).card := by
  rw [get_distributed_source_signal, List.length_map, activeNodes]
  exact length_filter_range_eq_card _ _

/-- C7: an arc element whose aperture diameter exceeds twice its radius of
curvature is rejected eagerly with the `invalidGeometry` error, before any
integration points are generated; the check is a pure function of the inputs,
hence deterministic. -/
theorem add_arc_element_invalid_geometry (e : ArcElement) (dx : ℝ) (R : ℕ)
    (h : 2 * e.roc < e.diameter) :
    add_arc_element e dx R = Except.error GeometryError.invalidGeometry := by
  rw [add_arc_element, if_pos h]

/-- Witness for C7 on a concrete invalid bowl: diameter 70 mm on a 30 mm
radius of curvature. -/
theorem add_arc_element_invalid_geometry_witness :
    2 * (3 / 100 : ℝ) < 7 / 100 ∧
      add_arc_element ⟨(0, 0), 3 / 100, 7 / 100, (1, 0)⟩ (1 / 1000) 10
        = Except.error GeometryError.invalidGeometry :=
  ⟨by norm_num, add_arc_element_invalid_geometry _ _ _ (by norm_num)⟩

/-- C5: every sample of the continuous-wave signal generator is
`amp * sin (2 pi f0 t + phase)` for the element amplitude and phase and the
time sample. -/
theorem create_cw_signals_sample (t : List ℝ) (f0 : ℝ) (amps phases : List ℝ)
    (e i : ℕ) (hea : e < amps.length) (hep : e < phases.length)
    (hit : i < t.length)
    (he : e < (create_cw_signals t f0 amps phases).length)
    (hi : i < ((create_cw_signals t f0 amps phases).get ⟨e, he⟩).length) :
    ((create_cw_signals t f0 amps phases).get ⟨e, he⟩).get ⟨i, hi⟩
      = amps.get ⟨e, hea⟩ *
        Real.sin (2 * Real.pi * f0 * t.get ⟨i, hit⟩ + phases.get ⟨e, hep⟩) := by
  simp only [create_cw_signals, List.get_eq_getElem, List.getElem_map, List.getElem_zip]

/-- Witness for C5 on a one-sample, one-element signal. -/
theorem create_cw_signals_sample_witness :
    ((create_cw_signals [0] 1 [2] [0]).get ⟨0, by simp [create_cw_signals]⟩).get
        ⟨0, by simp [create_cw_signals]⟩
      = 2 * Real.sin (2 * Real.pi * 1 * 0 + 0) :=
  create_cw_signals_sample [0] 1 [2] [0] 0 0 (by simp) (by simp) (by simp)
    (by simp [create_cw_signals]) (by simp [create_cw_signals])

/-- The spherical cap of a geometrically valid bowl has positive area. -/
theorem capArea_pos (roc d : ℝ) (hroc : 0 < roc) (hd : 0 < d) :
    0 < capArea roc d := by
  rw [capArea]
  have h1 : Real.sqrt (roc ^ 2 - (d / 2) ^ 2) < roc :=
    (Real.sqrt_lt' hroc).mpr (by nlinarith)
  exact mul_pos (mul_pos (mul_pos two_pos Real.pi_pos) hroc) (sub_pos.mpr h1)

/-- A geometrically valid bowl is sampled with at least one integration point
at every oversampling rate of at least one. -/
theorem bowlPointCount_pos (roc d dx : ℝ) (R : ℕ) (hroc : 0 < roc) (hd : 0 < d)
    (hdx : 0 < dx) (hR : 1 ≤ R) :
    0 < bowlPointCount roc d dx R := by
  rw [bowlPointCount]
  apply Nat.ceil_pos.mpr
  have hA := capArea_pos roc d hroc hd
  have hRr : (0 : ℝ) < (R : ℝ) := by exact_mod_cast Nat.lt_of_lt_of_le Nat.zero_lt_one hR
  positivity

/-- Summing the constant second components of an indexed point list gives the
point count times the constant. -/
theorem sum_map_snd_range (g : ℕ → ℝ × ℝ × ℝ) (w : ℝ) (N : ℕ) :
    (((List.range N).map (fun (j : ℕ) => (g j, w))).map (fun p => p.2)).sum
      = (N : ℝ) * w := by
  induction N with
  | zero => simp
  | succ m ih =>
    rw [List.range_succ, List.map_append, List.map_append, List.sum_append, ih]
    push_cast
    simp
    ring

/-- The local area weights of a nonempty bowl sample sum exactly to the cap
area, since the sampler distributes the cap area uniformly over the points. -/
theorem sumAreaWeights_bowl (roc d dx : ℝ) (R : ℕ)
    (hN : 0 < bowlPointCount roc d dx R) :
    sumAreaWeights (bowlIntegrationPoints roc d dx R) = capArea roc d := by
  have hNe : ((bowlPointCount roc d dx R : ℕ) : ℝ) ≠ 0 := by
    exact_mod_cast hN.ne'
  rw [sumAreaWeights, bowlIntegrationPoints]
  rw [sum_map_snd_range]
  field_simp

/-- C8: the sum of local area weights over the bowl integration point set
converges to the exact spherical-cap area
`2 pi roc (roc - sqrt (roc ^ 2 - (d / 2) ^ 2))` as the oversampling rate grows,
and the approximation error is antitone in the oversampling rate (the sampler
distributes the exact area uniformly, so the error vanishes as soon as a point
exists). -/
theorem bowl_area_weights_converge (roc d dx : ℝ) (hroc : 0 < roc) (hd : 0 < d)
    (hdx : 0 < dx) :
    Filter.Tendsto (fun R : ℕ => sumAreaWeights (bowlIntegrationPoints roc d dx R))
        Filter.atTop
        (nhds (2 * Real.pi * roc * (roc - Real.sqrt (roc ^ 2 - (d / 2) ^ 2)))) ∧
      Antitone (fun R : ℕ =>
        |sumAreaWeights (bowlIntegrationPoints roc d dx R)
          - 2 * Real.pi * roc * (roc - Real.sqrt (roc ^ 2 - (d / 2) ^ 2))|) := by
  have harea : capArea roc d = 2 * Real.pi * roc *
      (roc - Real.sqrt (roc ^ 2 - (d / 2) ^ 2)) := by rw [capArea]
  have hsum : ∀ R : ℕ, 1 ≤ R →
      sumAreaWeights (bowlIntegrationPoints roc d dx R) = capArea roc d := fun R hR =>
    sumAreaWeights_bowl roc d dx R (bowlPointCount_pos roc d dx R hroc hd hdx hR)
  constructor
  · rw [← harea]
    apply Filter.Tendsto.congr' _ tendsto_const_nhds
    filter_upwards [Filter.eventually_ge_atTop 1] with R hR
    exact (hsum R hR).symm
  · intro R1 R2 h12
    dsimp only
    rcases Nat.eq_zero_or_pos R1 with h1 | h1
    · rcases Nat.eq_zero_or_pos R2 with h2 | h2
      · rw [h1, h2]
      · rw [← harea, hsum R2 h2, sub_self, abs_zero]
        positivity
    · have h2 : 1 ≤ R2 := le_trans h1 h12
      rw [← harea, hsum R1 h1, hsum R2 h2]

/-- Witness for C8 on the 30 mm bowl of the notebook. -/
theorem bowl_area_weights_converge_witness :
    (0 : ℝ) < 3 / 100 ∧
      Filter.Tendsto
        (fun R : ℕ => sumAreaWeights (bowlIntegrationPoints (3 / 100) (3 / 100) (1 / 2000) R))
        Filter.atTop
        (nhds (2 * Real.pi * (3 / 100) *
          (3 / 100 - Real.sqrt ((3 / 100) ^ 2 - (3 / 100 / 2) ^ 2)))) :=
  ⟨by norm_num,
    (bowl_area_weights_converge (3 / 100) (3 / 100) (1 / 2000) (by norm_num) (by norm_num)
      (by norm_num)).1⟩

/-- The on-axis closed form has the removable-singularity limit
`k * capHeight roc a` at the geometric focus. -/
theorem onAxisSingular_tendsto (roc a k : ℝ) (hroc : 0 < roc) (ha : 0 ≤ a)
    (har : a ≤ roc) :
    Filter.Tendsto (onAxisSingular roc a k) (nhdsWithin roc {roc}ᶜ)
      (nhds (onAxisFocusValue roc a k)) := by
  have hrne : roc ≠ 0 := hroc.ne'
  set h := capHeight roc a with hdef
  have hsq : 0 ≤ roc ^ 2 - a ^ 2 := by nlinarith
  have hs_eq : Real.sqrt (roc ^ 2 - a ^ 2) = roc - h := by
    rw [hdef, capHeight]; ring
  have hs_sq : (roc - h) ^ 2 = roc ^ 2 - a ^ 2 := by
    rw [← hs_eq, Real.sq_sqrt hsq]
  have hgroc : (roc - h) ^ 2 + a ^ 2 = roc ^ 2 := by rw [hs_sq]; ring
  have hrim : rimDistance roc a roc = roc := by
    rw [rimDistance, ← hdef, hgroc, Real.sqrt_sq hroc.le]
  -- derivative of the squared-distance polynomial
  have hg : HasDerivAt (fun z : ℝ => (z - h) ^ 2 + a ^ 2) (2 * (roc - h)) roc := by
    have h1 : HasDerivAt (fun z : ℝ => z - h) 1 roc := (hasDerivAt_id roc).sub_const h
    have h2 : HasDerivAt (fun z : ℝ => (z - h) ^ 2) (2 * (roc - h)) roc := by
      simpa using h1.pow 2
    simpa using h2.add_const (a ^ 2)
  -- derivative of the square root at the squared distance
  have hsd : HasDerivAt Real.sqrt (1 / (2 * roc)) ((roc - h) ^ 2 + a ^ 2) := by
    have hx : ((roc - h) ^ 2 + a ^ 2) ≠ 0 := by rw [hgroc]; positivity
    have hsv : Real.sqrt ((roc - h) ^ 2 + a ^ 2) = roc := by
      rw [hgroc, Real.sqrt_sq hroc.le]
    have hder := Real.hasDerivAt_sqrt hx
    rw [hsv] at hder
    exact hder
  -- derivative of the rim distance
  have hdelta : HasDerivAt (fun z => rimDistance roc a z) ((roc - h) / roc) roc := by
    have hcomp := hsd.comp roc hg
    have hval : 1 / (2 * roc) * (2 * (roc - h)) = (roc - h) / roc := by
      field_simp
      ring
    rw [hval] at hcomp
    have hfun : Real.sqrt ∘ (fun z : ℝ => (z - h) ^ 2 + a ^ 2)
        = fun z => rimDistance roc a z := by
      funext z
      simp only [Function.comp_apply]
      rw [rimDistance, ← hdef]
    rwa [hfun] at hcomp
  -- numerator and denominator and their slopes
  have hu : HasDerivAt (fun z => rimDistance roc a z - z) ((roc - h) / roc - 1) roc := by
    simpa using hdelta.sub (hasDerivAt_id roc)
  have hinner : HasDerivAt (fun z => k * (rimDistance roc a z - z) / 2)
      (k * ((roc - h) / roc - 1) / 2) roc := (hu.const_mul k).div_const 2
  have harg : k * (rimDistance roc a roc - roc) / 2 = 0 := by rw [hrim]; ring
  have hcos : Real.cos (k * (rimDistance roc a roc - roc) / 2) = 1 := by
    rw [harg, Real.cos_zero]
  have hsin : HasDerivAt Real.sin 1 (k * (rimDistance roc a roc - roc) / 2) := by
    have := Real.hasDerivAt_sin (k * (rimDistance roc a roc - roc) / 2)
    rwa [hcos] at this
  have hNsin : HasDerivAt (fun z => Real.sin (k * (rimDistance roc a z - z) / 2))
      (1 * (k * ((roc - h) / roc - 1) / 2)) roc := by
    have := hsin.comp roc hinner
    simpa [Function.comp] using this
  have hN : HasDerivAt (fun z => 2 * Real.sin (k * (rimDistance roc a z - z) / 2))
      (2 * (1 * (k * ((roc - h) / roc - 1) / 2))) roc := hNsin.const_mul 2
  have hD : HasDerivAt (fun z : ℝ => 1 - z / roc) (-(1 / roc)) roc := by
    simpa using ((hasDerivAt_id roc).div_const roc).const_sub 1
  have hNs := hasDerivAt_iff_tendsto_slope.mp hN
  have hDs := hasDerivAt_iff_tendsto_slope.mp hD
  have hDne : -(1 / roc) ≠ 0 := by
    simp [hrne]
  have hdiv := hNs.div hDs hDne
  have hN0 : (2 : ℝ) * Real.sin (k * (rimDistance roc a roc - roc) / 2) = 0 := by
    rw [harg, Real.sin_zero, mul_zero]
  have hD0 : 1 - roc / roc = 0 := by field_simp
  have hee : (fun z => slope (fun w => 2 * Real.sin (k * (rimDistance roc a w - w) / 2)) roc z
      / slope (fun w : ℝ => 1 - w / roc) roc z) =ᶠ[nhdsWithin roc {roc}ᶜ]
      onAxisSingular roc a k := by
    filter_upwards [self_mem_nhdsWithin] with z hz
    have hzne : z - roc ≠ 0 := sub_ne_zero.mpr hz
    have hcancel : ∀ x y : ℝ, (x / (z - roc)) / (y / (z - roc)) = x / y := by
      intro x y
      rcases eq_or_ne y 0 with hy | hy
      · simp [hy]
      · field_simp
    rw [slope_def_field, slope_def_field, hN0, hD0, sub_zero, sub_zero, hcancel,
      onAxisSingular]
  have hval : 2 * (1 * (k * ((roc - h) / roc - 1) / 2)) / -(1 / roc) = k * h := by
    field_simp
    ring
  have hlim := Filter.Tendsto.congr' hee hdiv
  rw [hval] at hlim
  rw [onAxisFocusValue, ← hdef]
  exact hlim

/-- C1: at an axial evaluation point that coincides exactly with the geometric
focus, the analytical evaluator returns the finite limiting value of the
closed-form on-axis pressure: away from the focus it is the closed form with
the `1 - z / roc` denominator, and its value at the focus is the limit of that
closed form along the punctured neighbourhood, so no division by the vanishing
denominator occurs (over the reals every value is finite; no NaN or infinity
can arise). -/
theorem focused_bowl_oneil_focus_limit (roc d amp f0 c0 rho0 : ℝ)
    (hroc : 0 < roc) (hd : 0 ≤ d) (hgeom : d ≤ 2 * roc) :
    (∀ z, z ≠ roc →
        focused_bowl_oneil roc d amp f0 c0 rho0 z
          = rho0 * c0 * amp * onAxisSingular roc (d / 2) (2 * Real.pi * f0 / c0) z) ∧
      Filter.Tendsto (focused_bowl_oneil roc d amp f0 c0 rho0)
        (nhdsWithin roc {roc}ᶜ)
        (nhds (focused_bowl_oneil roc d amp f0 c0 rho0 roc)) := by
  have ha : 0 ≤ d / 2 := by linarith
  have har : d / 2 ≤ roc := by linarith
  have hsing := onAxisSingular_tendsto roc (d / 2) (2 * Real.pi * f0 / c0) hroc ha har
  constructor
  · intro z hz
    rw [focused_bowl_oneil, onAxisFactor, if_neg hz]
  · have hfocus : focused_bowl_oneil roc d amp f0 c0 rho0 roc
        = rho0 * c0 * amp * onAxisFocusValue roc (d / 2) (2 * Real.pi * f0 / c0) := by
      rw [focused_bowl_oneil, onAxisFactor, if_pos rfl]
    rw [hfocus]
    have hmul := hsing.const_mul (rho0 * c0 * amp)
    apply Filter.Tendsto.congr' _ hmul
    filter_upwards [self_mem_nhdsWithin] with z hz
    have hzz : z ≠ roc := hz
    rw [focused_bowl_oneil, onAxisFactor, if_neg hzz]

/-- Witness for C1 on the 30 mm bowl of the notebook. -/
theorem focused_bowl_oneil_focus_limit_witness :
    (0 : ℝ) < 3 / 100 ∧
      Filter.Tendsto (focused_bowl_oneil (3 / 100) (3 / 100) (2 / 3) (10 ^ 6) 1500 1000)
        (nhdsWithin (3 / 100) {(3 / 100 : ℝ)}ᶜ)
        (nhds (focused_bowl_oneil (3 / 100) (3 / 100) (2 / 3) (10 ^ 6) 1500 1000
          (3 / 100))) :=
  ⟨by norm_num,
    (focused_bowl_oneil_focus_limit (3 / 100) (3 / 100) (2 / 3) (10 ^ 6) 1500 1000
      (by norm_num) (by norm_num) (by norm_num)).2⟩

/-- A vanishing aperture contributes nothing on the nonnegative axis. -/
theorem onAxisFactor_zero_aperture (roc k z : ℝ) (hroc : 0 ≤ roc) (hz : 0 ≤ z) :
    onAxisFactor roc 0 k z = 0 := by
  have hcap : capHeight roc 0 = 0 := by
    rw [capHeight]
    norm_num [Real.sqrt_sq hroc]
  rw [onAxisFactor]
  by_cases hzr : z = roc
  · rw [if_pos hzr, onAxisFocusValue, hcap, mul_zero]
  · rw [if_neg hzr, onAxisSingular, rimDistance, hcap]
    norm_num
    rw [Real.sqrt_sq hz]
    simp

/-- C2: on the nonnegative axis, the annular-array evaluator applied to a
single ring with inner diameter 0 and outer diameter `d` and phase 0 returns
exactly the same complex pressure as the single-bowl evaluator with diameter
`d` and the identical radius of curvature, amplitude, frequency, sound speed
and density; in particular the two agree within relative error `1e-9`
everywhere, including the notebook scenario of a 30 mm bowl on `0..50` mm. -/
theorem focused_annulus_single_ring_eq_bowl (roc d amp f0 c0 rho0 z : ℝ)
    (hroc : 0 ≤ roc) (hz : 0 ≤ z) :
    focused_annulus_oneil roc [⟨0, d, amp, 0⟩] f0 c0 rho0 z
        = ((focused_bowl_oneil roc d amp f0 c0 rho0 z : ℝ) : ℂ) ∧
      Complex.abs (focused_annulus_oneil roc [⟨0, d, amp, 0⟩] f0 c0 rho0 z
          - ((focused_bowl_oneil roc d amp f0 c0 rho0 z : ℝ) : ℂ))
        ≤ 1 / 10 ^ 9 * Complex.abs ((focused_bowl_oneil roc d amp f0 c0 rho0 z : ℝ) : ℂ) := by
  have h0 : onAxisFactor roc (0 / 2) (2 * Real.pi * f0 / c0) z = 0 := by
    rw [zero_div]
    exact onAxisFactor_zero_aperture roc (2 * Real.pi * f0 / c0) z hroc hz
  have heq : focused_annulus_oneil roc [⟨0, d, amp, 0⟩] f0 c0 rho0 z
      = ((focused_bowl_oneil roc d amp f0 c0 rho0 z : ℝ) : ℂ) := by
    rw [focused_annulus_oneil]
    simp only [List.map_cons, List.map_nil, List.sum_cons, List.sum_nil, add_zero]
    rw [ringPressure, focused_bowl_oneil]
    simp only [h0, sub_zero, Complex.ofReal_zero, zero_mul, Complex.exp_zero, mul_one]
    push_cast
    ring
  refine ⟨heq, ?_⟩
  rw [heq, sub_self]
  simp only [map_zero]
  positivity

/-- Witness for C2 at the notebook parameters, evaluated at the apex. -/
theorem focused_annulus_single_ring_eq_bowl_witness :
    (0 : ℝ) ≤ 3 / 100 ∧
      focused_annulus_oneil (3 / 100) [⟨0, 3 / 100, 2 / 3, 0⟩] (10 ^ 6) 1500 1000 0
        = ((focused_bowl_oneil (3 / 100) (3 / 100) (2 / 3) (10 ^ 6) 1500 1000 0 : ℝ) : ℂ) :=
  ⟨by norm_num,
    (focused_annulus_single_ring_eq_bowl (3 / 100) (3 / 100) (2 / 3) (10 ^ 6) 1500 1000 0
      (by norm_num) (by norm_num)).1⟩
